import Mathlib

/-!
Shallow embedding of the MP4-splitter application core
(`mp4splitter/split_points_table.py` and `mp4splitter/video_splitter.py`).

Time values are milliseconds.  Python `None` becomes `Option`, Python
exceptions become `Option`/error branches, and the Qt signals emitted by
`VideoSplitter` become an explicit event trace.
-/

set_option autoImplicit false

namespace Mp4Splitter

/-- `SplitPoint` from `split_points_table.py`: `start_time`, `end_time`
(both may be Python `None`), `selected` (initially `True`).
Times are `Int` because the time parser can produce negative values. -/
structure SplitPoint where
  start_time : Option Int
  end_time : Option Int
  selected : Bool
deriving DecidableEq, Repr

/-- `SplitPoint.duration`: `0` if either bound is `None`, else `end - start`. -/
def SplitPoint.duration (p : SplitPoint) : Int :=
  match p.start_time, p.end_time with
  | some s, some e => e - s
  | _, _ => 0

/-! ### Python string helpers used by the source

`str.split(sep)` (keeping empty fields, `"".split(sep) == [""]`) and
`int(s)` (strip whitespace, optional sign, digits with single underscores
strictly between digits). -/

/-- Python `str.split(sep)` on a character list: separator occurrences
delimit fields, empty fields are kept. -/
def pySplitList (sep : Char) : List Char → List (List Char)
  | [] => [[]]
  | c :: cs =>
    if c = sep then [] :: pySplitList sep cs
    else
      match pySplitList sep cs with
      | [] => [[c]]
      | g :: gs => (c :: g) :: gs

/-- Python `str.split(sep)` on strings. -/
def pySplit (s : String) (sep : Char) : List String :=
  (pySplitList sep s.data).map (fun l => ⟨l⟩)

/-- Whitespace stripped by Python `int()`. -/
def pyIsWs (c : Char) : Bool :=
  c == ' ' || c == '\t' || c == '\n' || c == '\r' || c == '\x0b' || c == '\x0c'

/-- Strip leading and trailing whitespace. -/
def trimWs (cs : List Char) : List Char :=
  ((cs.dropWhile pyIsWs).reverse.dropWhile pyIsWs).reverse

/-- Digit run accepted by Python `int()` after the sign: nonempty decimal
digits, with single underscores allowed strictly between digits.  Returns
the digits with underscores removed. -/
def usDigits : List Char → Option (List Char)
  | [] => none
  | [c] => if c.isDigit then some [c] else none
  | c :: d :: rest =>
    if c.isDigit then
      if d = '_' then (usDigits rest).map (fun l => c :: l)
      else (usDigits (d :: rest)).map (fun l => c :: l)
    else none

/-- Decimal value of a digit list (most significant first). -/
def digitsToNat (cs : List Char) : Nat :=
  cs.foldl (fun a c => 10 * a + (c.toNat - 48)) 0

/-- Magnitude part of Python `int()`. -/
def digitsVal (cs : List Char) : Option Nat :=
  (usDigits cs).map digitsToNat

/-- Python `int(s)` on a character list (ASCII subset). -/
def pyIntChars (cs : List Char) : Option Int :=
  match trimWs cs with
  | [] => none
  | c :: rest =>
    if c = '+' then (digitsVal rest).map (fun n => (n : Int))
    else if c = '-' then (digitsVal rest).map (fun n => -(n : Int))
    else (digitsVal (c :: rest)).map (fun n => (n : Int))

/-- Python `int(s)`. -/
def pyInt (s : String) : Option Int :=
  pyIntChars s.data

/-! ### Decimal rendering used by the f-strings in `format_time` -/

/-- Decimal digits, fuel-based so that the kernel can evaluate it
(`fuel > n` suffices since `n / 10` shrinks). -/
def natDigitCharsAux : Nat → Nat → List Char
  | 0, _ => []
  | fuel + 1, n =>
    if n < 10 then [Nat.digitChar n]
    else natDigitCharsAux fuel (n / 10) ++ [Nat.digitChar (n % 10)]

/-- Decimal digits of a natural number, most significant first
(Python `str(n)` for `n ≥ 0`). -/
def natDigitChars (n : Nat) : List Char :=
  natDigitCharsAux (n + 1) n

/-- Left-pad with `'0'` to width `w`. -/
def padZeros (w : Nat) (cs : List Char) : List Char :=
  List.replicate (w - cs.length) '0' ++ cs

/-- Python `f"{x:0wd}"`: sign first, then zero-pad to total width `w`. -/
def pad0 (w : Nat) (x : Int) : List Char :=
  if x < 0 then '-' :: padZeros (w - 1) (natDigitChars x.natAbs)
  else padZeros w (natDigitChars x.natAbs)

/-! ### `SplitPointsTable.format_time` / `parse_time` -/

/-- `format_time(ms)` character list.  Python `//` and `%` with positive
divisor are `Int.fdiv` and `Int.emod`. -/
def formatTimeChars (ms : Option Int) : List Char :=
  match ms with
  | none => "00:00:00.000".data
  | some ms =>
    let seconds := Int.fdiv ms 1000
    let minutes := Int.fdiv seconds 60
    let hours := Int.fdiv minutes 60
    pad0 2 hours ++ ':' :: pad0 2 (Int.emod minutes 60) ++
      ':' :: pad0 2 (Int.emod seconds 60) ++ '.' :: pad0 3 (Int.emod ms 1000)

/-- `SplitPointsTable.format_time`. -/
def format_time (ms : Option Int) : String :=
  ⟨formatTimeChars ms⟩

/-- `SplitPointsTable.parse_time`: split on `':'` into exactly three
fields, the last on `'.'` into exactly two; `int()` each part;
`none` models the raised `ValueError`. -/
def parse_time (s : String) : Option Int :=
  match pySplit s ':' with
  | [hours, minutes, rest] =>
    match pySplit rest '.' with
    | [seconds, milliseconds] =>
      match pyInt hours, pyInt minutes, pyInt seconds, pyInt milliseconds with
      | some h, some m, some sec, some msv =>
        some ((h * 3600 + m * 60 + sec) * 1000 + msv)
      | _, _, _, _ => none
    | _ => none
  | _ => none

/-! ### `SplitPointsTable` list operations -/

/-- Apply `f` to the element at index `i` (in-place field assignment in
the source). -/
def modifyAt (f : SplitPoint → SplitPoint) : Nat → List SplitPoint → List SplitPoint
  | _, [] => []
  | 0, p :: rest => f p :: rest
  | i + 1, p :: rest => p :: modifyAt f i rest

/-- `SplitPointsTable.add_split_point(current_time)`: start is `0` for the
first point, else the last point's `end_time`; the new point gets
`end_time = current_time`, `selected = True`; then (list length `> 1`)
`split_points[-2].end_time = start_time` is re-assigned. -/
def add_split_point (pts : List SplitPoint) (current_time : Int) : List SplitPoint :=
  match pts.getLast? with
  | none => [⟨some 0, some current_time, true⟩]
  | some last =>
    let start_time := last.end_time
    let pts' := pts ++ [⟨start_time, some current_time, true⟩]
    modifyAt (fun p => { p with end_time := start_time }) (pts'.length - 2) pts'

/-- `SplitPointsTable.toggle_selection(row, state)`. -/
def toggle_selection (pts : List SplitPoint) (row : Nat) (state : Bool) : List SplitPoint :=
  if row < pts.length then modifyAt (fun p => { p with selected := state }) row pts
  else pts

/-- `SplitPointsTable.cell_edited(row, column)` with the edited cell's
text: out-of-range rows and non-time columns are ignored; a `ValueError`
from `parse_time` leaves the list unchanged; otherwise the edited
boundary is set and the matching boundary of the adjacent point follows. -/
def cell_edited (pts : List SplitPoint) (row column : Nat) (text : String) :
    List SplitPoint :=
  if pts.length ≤ row ∨ (column ≠ 1 ∧ column ≠ 2) then pts
  else
    match parse_time text with
    | none => pts
    | some time_ms =>
      if column = 1 then
        let pts1 := modifyAt (fun p => { p with start_time := some time_ms }) row pts
        if 0 < row then
          modifyAt (fun p => { p with end_time := some time_ms }) (row - 1) pts1
        else pts1
      else
        let pts1 := modifyAt (fun p => { p with end_time := some time_ms }) row pts
        if row < pts.length - 1 then
          modifyAt (fun p => { p with start_time := some time_ms }) (row + 1) pts1
        else pts1

/-- `SplitPointsTable.get_selected_points()`. -/
def get_selected_points (pts : List SplitPoint) : List SplitPoint :=
  pts.filter (·.selected)

/-! ### `VideoSplitter` (`video_splitter.py`)

The Qt signals become an explicit event trace; the moviepy calls become
an environment: `openError` is the exception raised by
`VideoFileClip(path)` (if any), `durationMs` stands for
`int(video.duration * 1000)`, and `encodeError i` is the exception (if
any) raised by `subclipped`/`write_videofile` for the `i`-th segment. -/

/-- Python truthiness of the `video_path` / `output_dir` fields:
`None` and the empty string are falsy. -/
def pyFalsyStr : Option String → Bool
  | none => true
  | some s => s == ""

/-- `os.path.basename` (POSIX): the part after the last `'/'`. -/
def py_basename (s : String) : String :=
  match (pySplit s '/').getLast? with
  | some b => b
  | none => ""

/-- Stem part of `os.path.splitext`: cut at the last `'.'`, except that a
run of leading dots never starts an extension. -/
def py_stem (b : String) : String :=
  let cs := b.data
  let tl := cs.reverse.takeWhile (· != '.')
  if tl.length = cs.length then b
  else
    let stem := cs.take (cs.length - tl.length - 1)
    if stem.all (· == '.') then b else ⟨stem⟩

/-- The four Qt signals of `VideoSplitter`. -/
inductive Event where
  | progressUpdated (current total : Nat)
  | segmentStarted (num : Nat) (filename : String)
  | splittingCompleted
  | errorOccurred (message : String)
deriving DecidableEq, Repr

/-- Behaviour of the external moviepy library for one run. -/
structure EncodeEnv where
  openError : Option String
  durationMs : Int
  width : Nat
  height : Nat
  fps : Int
  encodeError : Nat → Option String

/-- `str(e)` of the `TypeError` raised by `None / 1000`. -/
def typeErrorMsg : String :=
  "unsupported operand type(s) for /: 'NoneType' and 'int'"

/-- `f"{base_name}_split_{i+1}.mp4"` for the 0-based segment index `i`. -/
def segFileName (base : String) (i : Nat) : String :=
  base ++ "_split_" ++ (⟨natDigitChars (i + 1)⟩ : String) ++ ".mp4"

/-- `os.path.join(dir, name)` for a directory without trailing slash. -/
def pyJoin (d f : String) : String := d ++ "/" ++ f

/-- Result of the per-segment loop of `split_video`. -/
structure LoopOut where
  events : List Event
  calls : List (Int × Int)
  files : List String
  ok : Bool
deriving DecidableEq, Repr

/-- The `for i, point in enumerate(split_points)` loop: each iteration
computes `start_sec`/`end_sec` (a `TypeError` if a bound is `None`),
emits `segment_started(i+1, fname)` and `progress_updated(i, total)`,
then calls the encoder; `calls` records the `(start_ms, end_ms)` pair of
each `subclipped` call (passed to moviepy as `ms / 1000` seconds) and
`files` the successfully written output paths.  An exception ends the
loop with the wrapped error event and `ok = false`. -/
def splitLoop (env : EncodeEnv) (base output_dir : String) (total : Nat) :
    Nat → List SplitPoint → LoopOut
  | _, [] => ⟨[], [], [], true⟩
  | i, point :: rest =>
    match point.start_time, point.end_time with
    | some st, some en =>
      let fname := segFileName base i
      let path := pyJoin output_dir fname
      let pre := [Event.segmentStarted (i + 1) fname, Event.progressUpdated i total]
      match env.encodeError i with
      | some msg =>
        ⟨pre ++ [Event.errorOccurred ("Error splitting video: " ++ msg)], [(st, en)], [], false⟩
      | none =>
        let r := splitLoop env base output_dir total (i + 1) rest
        ⟨pre ++ r.events, (st, en) :: r.calls, path :: r.files, r.ok⟩
    | _, _ =>
      ⟨[Event.errorOccurred ("Error splitting video: " ++ typeErrorMsg)], [], [], false⟩

/-- `if split_points and split_points[-1].end_time is None:
split_points[-1].end_time = int(video.duration * 1000)`. -/
def resolveLast (pts : List SplitPoint) (durationMs : Int) : List SplitPoint :=
  match pts.getLast? with
  | some last =>
    if last.end_time = none then
      pts.dropLast ++ [{ last with end_time := some durationMs }]
    else pts
  | none => pts

/-- Observable outcome of one `split_video` run: emitted events, encoder
calls, written files, the (possibly mutated) split-point list, and
whether the video resource was opened / closed. -/
structure Outcome where
  events : List Event
  calls : List (Int × Int)
  files : List String
  points : List SplitPoint
  opened : Bool
  closed : Bool
deriving DecidableEq, Repr

/-- `VideoSplitter.split_video(split_points)`. -/
def split_video (video_path output_dir : Option String) (env : EncodeEnv)
    (split_points : List SplitPoint) : Outcome :=
  if pyFalsyStr video_path || pyFalsyStr output_dir then
    ⟨[Event.errorOccurred "Video path or output directory not set"], [], [],
      split_points, false, false⟩
  else if split_points.isEmpty then
    ⟨[Event.errorOccurred "No split points defined"], [], [], split_points, false, false⟩
  else
    let base_name := py_stem (py_basename (video_path.getD ""))
    match env.openError with
    | some msg =>
      ⟨[Event.errorOccurred ("Error splitting video: " ++ msg)], [], [],
        split_points, false, false⟩
    | none =>
      let pts := resolveLast split_points env.durationMs
      let total := pts.length
      let r := splitLoop env base_name (output_dir.getD "") total 0 pts
      if r.ok then
        ⟨r.events ++ [Event.progressUpdated total total, Event.splittingCompleted],
          r.calls, r.files, pts, true, true⟩
      else
        ⟨r.events, r.calls, r.files, pts, true, false⟩

/-- The dict returned by `get_video_info` (`duration` is
`video.duration * 1000` milliseconds). -/
structure VideoInfoDict where
  duration : Int
  width : Nat
  height : Nat
  fps : Int
  filename : String
deriving DecidableEq, Repr

/-- Observable outcome of one `get_video_info` run. -/
structure InfoOutcome where
  result : Option VideoInfoDict
  events : List Event
  opened : Bool
  closed : Bool
deriving DecidableEq, Repr

/-- `VideoSplitter.get_video_info()`. -/
def get_video_info (video_path : Option String) (env : EncodeEnv) : InfoOutcome :=
  if pyFalsyStr video_path then ⟨none, [], false, false⟩
  else
    match env.openError with
    | some msg =>
      ⟨none, [Event.errorOccurred ("Error getting video info: " ++ msg)], false, false⟩
    | none =>
      ⟨some ⟨env.durationMs, env.width, env.height, env.fps,
          py_basename (video_path.getD "")⟩, [], true, true⟩

/-! ### Spec-level descriptors used in the theorem statements -/

/-- The ten decimal digit characters. -/
def digitList : List Char := ['0', '1', '2', '3', '4', '5', '6', '7', '8', '9']

/-- The canonical `HH:MM:SS.mmm` shape of the spec: hours at least two
digits, two-digit minutes and seconds, three-digit milliseconds
(defined from the spec's words, for comparison with `parse_time`). -/
def canonicalShape (s : String) : Prop :=
  ∃ H M S MS : List Char,
    s.data = H ++ ':' :: (M ++ ':' :: (S ++ '.' :: MS)) ∧
    2 ≤ H.length ∧ M.length = 2 ∧ S.length = 2 ∧ MS.length = 3 ∧
    (∀ c ∈ H, c ∈ digitList) ∧ (∀ c ∈ M, c ∈ digitList) ∧
    (∀ c ∈ S, c ∈ digitList) ∧ (∀ c ∈ MS, c ∈ digitList)

/-- Every point has both bounds set (no Python `None`). -/
def allSet (pts : List SplitPoint) : Prop :=
  ∀ p ∈ pts, p.start_time ≠ none ∧ p.end_time ≠ none

instance allSetDecidable (pts : List SplitPoint) : Decidable (allSet pts) :=
  inferInstanceAs (Decidable (∀ p ∈ pts, p.start_time ≠ none ∧ p.end_time ≠ none))

/-- The `(start_ms, end_ms)` pairs handed to the encoder, in list order. -/
def segCalls (pts : List SplitPoint) : List (Int × Int) :=
  pts.map (fun p => (p.start_time.getD 0, p.end_time.getD 0))

/-- Expected notification trace for `k` successful segments starting at
0-based index `i`: `SegmentStarted(i+1, name)` then `Progress(i, total)`
for each segment. -/
def okEvents (base : String) (total : Nat) : Nat → Nat → List Event
  | _, 0 => []
  | i, k + 1 =>
    Event.segmentStarted (i + 1) (segFileName base i) ::
      Event.progressUpdated i total :: okEvents base total (i + 1) k

/-- Expected output paths for `k` segments starting at 0-based index `i`. -/
def segPaths (output_dir base : String) : Nat → Nat → List String
  | _, 0 => []
  | i, k + 1 => pyJoin output_dir (segFileName base i) :: segPaths output_dir base (i + 1) k

/-- A user operation on the split-points table. -/
inductive TableOp where
  | add (t : Int)
  | edit (row column : Nat) (text : String)

/-- One table operation applied to the list. -/
def applyOp (pts : List SplitPoint) : TableOp → List SplitPoint
  | .add t => add_split_point pts t
  | .edit row column text => cell_edited pts row column text

/-- A sequence of table operations starting from the empty list. -/
def applyOps (ops : List TableOp) : List SplitPoint :=
  ops.foldl applyOp []

/-- Does the operation edit the start cell of row 0? -/
def editsHeadStart : TableOp → Bool
  | .edit 0 1 _ => true
  | _ => false

/-- Default element for indexing. -/
def dfl : SplitPoint := ⟨none, none, true⟩

/-- Gapless chain: each point's `end_time` equals the next point's
`start_time`. -/
def chainOK (pts : List SplitPoint) : Prop :=
  ∀ j, j + 1 < pts.length →
    (pts.getD j dfl).end_time = (pts.getD (j + 1) dfl).start_time

/-- The first interval (if any) starts at 0. -/
def headOK (pts : List SplitPoint) : Prop :=
  pts = [] ∨ (pts.getD 0 dfl).start_time = some 0

/-! ### Lemmas: decimal digits and Python `int()` on digit strings -/

theorem digitList_props : ∀ c ∈ digitList,
    pyIsWs c = false ∧ c.isDigit = true ∧ c ≠ ':' ∧ c ≠ '.' ∧ c ≠ '+' ∧
      c ≠ '-' ∧ c ≠ '_' := by decide

theorem digitChar_mem_digitList {n : Nat} (h : n < 10) :
    Nat.digitChar n ∈ digitList := by
  interval_cases n <;> decide

theorem digitChar_toNat {n : Nat} (h : n < 10) : (Nat.digitChar n).toNat = n + 48 := by
  interval_cases n <;> decide

theorem natDigitCharsAux_mem {fuel n : Nat} (h : n < fuel) :
    ∀ c ∈ natDigitCharsAux fuel n, c ∈ digitList := by
  induction fuel generalizing n with
  | zero => omega
  | succ fuel ih =>
    intro c hc
    unfold natDigitCharsAux at hc
    by_cases h10 : n < 10
    · rw [if_pos h10] at hc
      simp only [List.mem_singleton] at hc
      exact hc ▸ digitChar_mem_digitList h10
    · rw [if_neg h10] at hc
      rcases List.mem_append.mp hc with hc | hc
      · exact ih (by omega) c hc
      · simp only [List.mem_singleton] at hc
        exact hc ▸ digitChar_mem_digitList (Nat.mod_lt _ (by omega))

theorem natDigitChars_mem {n : Nat} : ∀ c ∈ natDigitChars n, c ∈ digitList :=
  natDigitCharsAux_mem (Nat.lt_succ_self n)

theorem natDigitCharsAux_ne_nil {fuel n : Nat} (h : 0 < fuel) :
    natDigitCharsAux fuel n ≠ [] := by
  cases fuel with
  | zero => omega
  | succ fuel =>
    unfold natDigitCharsAux
    by_cases h10 : n < 10
    · rw [if_pos h10]; simp
    · rw [if_neg h10]; simp

theorem natDigitChars_ne_nil {n : Nat} : natDigitChars n ≠ [] :=
  natDigitCharsAux_ne_nil (Nat.succ_pos n)

theorem digitsToNat_acc (cs : List Char) :
    ∀ a : Nat, cs.foldl (fun a c => 10 * a + (c.toNat - 48)) a =
      a * 10 ^ cs.length + digitsToNat cs := by
  induction cs with
  | nil => intro a; simp [digitsToNat]
  | cons c cs ih =>
    intro a
    have h1 := ih (10 * a + (c.toNat - 48))
    have h2 := ih (10 * 0 + (c.toNat - 48))
    simp only [digitsToNat, List.foldl_cons] at *
    rw [h1, h2]
    simp only [List.length_cons, pow_succ]
    ring

theorem digitsToNat_append_singleton (cs : List Char) (c : Char) :
    digitsToNat (cs ++ [c]) = 10 * digitsToNat cs + (c.toNat - 48) := by
  simp [digitsToNat, List.foldl_append]

theorem digitsToNat_natDigitCharsAux {fuel n : Nat} (h : n < fuel) :
    digitsToNat (natDigitCharsAux fuel n) = n := by
  induction fuel generalizing n with
  | zero => omega
  | succ fuel ih =>
    unfold natDigitCharsAux
    by_cases h10 : n < 10
    · rw [if_pos h10]
      simp [digitsToNat, digitChar_toNat h10]
    · rw [if_neg h10]
      rw [digitsToNat_append_singleton, ih (by omega),
        digitChar_toNat (Nat.mod_lt _ (by omega))]
      omega

theorem digitsToNat_natDigitChars (n : Nat) : digitsToNat (natDigitChars n) = n :=
  digitsToNat_natDigitCharsAux (Nat.lt_succ_self n)

theorem padZeros_mem {w : Nat} {cs : List Char} (h : ∀ c ∈ cs, c ∈ digitList) :
    ∀ c ∈ padZeros w cs, c ∈ digitList := by
  intro c hc
  rcases List.mem_append.mp hc with hc | hc
  · rw [List.eq_of_mem_replicate hc]; decide
  · exact h c hc

theorem padZeros_ne_nil {w : Nat} {cs : List Char} (h : cs ≠ []) :
    padZeros w cs ≠ [] := by
  unfold padZeros
  intro hcon
  exact h (List.append_eq_nil.mp hcon).2

theorem digitsToNat_padZeros (w : Nat) (cs : List Char) :
    digitsToNat (padZeros w cs) = digitsToNat cs := by
  unfold padZeros
  generalize w - cs.length = k
  induction k with
  | zero => rfl
  | succ k ih =>
    simp only [List.replicate_succ, List.cons_append]
    have h0 : (fun (a : Nat) (c : Char) => 10 * a + (c.toNat - 48)) 0 '0' = 0 := rfl
    simp only [digitsToNat, List.foldl_cons] at *
    rw [h0, ih]

theorem dropWhile_eq_self_of_none {p : Char → Bool} {cs : List Char}
    (h : ∀ c ∈ cs, p c = false) : cs.dropWhile p = cs := by
  cases cs with
  | nil => rfl
  | cons c cs => simp [List.dropWhile_cons, h c (by simp)]

theorem trimWs_eq_self {cs : List Char} (h : ∀ c ∈ cs, pyIsWs c = false) :
    trimWs cs = cs := by
  unfold trimWs
  rw [dropWhile_eq_self_of_none h,
    dropWhile_eq_self_of_none (fun c hc => h c (List.mem_reverse.mp hc)),
    List.reverse_reverse]

theorem usDigits_of_digits :
    ∀ cs : List Char, cs ≠ [] → (∀ c ∈ cs, c ∈ digitList) →
      usDigits cs = some cs := by
  intro cs
  induction cs with
  | nil => intro h; exact absurd rfl h
  | cons c rest ih =>
    intro _ hd
    cases rest with
    | nil =>
      have hc := (digitList_props c (hd c (by simp))).2.1
      simp [usDigits, hc]
    | cons d rest' =>
      have hc := (digitList_props c (hd c (by simp))).2.1
      have hdd := digitList_props d (hd d (by simp))
      have hrec := ih (by simp) (fun x hx => hd x (List.mem_cons_of_mem c hx))
      simp [usDigits, hc, hdd.2.2.2.2.2.2, hrec]

theorem pyIntChars_of_digits {cs : List Char} (hne : cs ≠ [])
    (hd : ∀ c ∈ cs, c ∈ digitList) :
    pyIntChars cs = some (digitsToNat cs : Int) := by
  unfold pyIntChars
  rw [trimWs_eq_self (fun c hc => (digitList_props c (hd c hc)).1)]
  cases cs with
  | nil => exact absurd rfl hne
  | cons c rest =>
    have hp := digitList_props c (hd c (by simp))
    simp only [if_neg hp.2.2.2.2.1, if_neg hp.2.2.2.2.2.1]
    unfold digitsVal
    rw [usDigits_of_digits (c :: rest) (by simp) hd]
    rfl

theorem pyInt_padZeros (w n : Nat) :
    pyInt ⟨padZeros w (natDigitChars n)⟩ = some (n : Int) := by
  show pyIntChars (padZeros w (natDigitChars n)) = some (n : Int)
  rw [pyIntChars_of_digits (padZeros_ne_nil natDigitChars_ne_nil)
    (padZeros_mem natDigitChars_mem)]
  rw [digitsToNat_padZeros, digitsToNat_natDigitChars]

/-! ### Lemmas: Python `str.split` -/

theorem pySplitList_of_not_mem {sep : Char} {cs : List Char} (h : sep ∉ cs) :
    pySplitList sep cs = [cs] := by
  induction cs with
  | nil => rfl
  | cons c cs ih =>
    have hc : ¬(c = sep) := fun hcon => h (hcon ▸ List.mem_cons_self c cs)
    have := ih (fun hcon => h (List.mem_cons_of_mem c hcon))
    simp [pySplitList, hc, this]

theorem pySplitList_append {sep : Char} {xs : List Char} (ys : List Char)
    (h : sep ∉ xs) :
    pySplitList sep (xs ++ sep :: ys) = xs :: pySplitList sep ys := by
  induction xs with
  | nil => simp [pySplitList]
  | cons x xs ih =>
    have hx : ¬(x = sep) := fun hcon => h (hcon ▸ List.mem_cons_self x xs)
    have := ih (fun hcon => h (List.mem_cons_of_mem x hcon))
    simp [pySplitList, hx, this]

theorem not_mem_of_digits {c : Char} {cs : List Char}
    (hd : ∀ x ∈ cs, x ∈ digitList) (hc : c ∉ digitList) : c ∉ cs :=
  fun hmem => hc (hd c hmem)

/-! ### Lemmas: `format_time` on non-negative input -/

theorem int_fdiv_cast (m k : Nat) : Int.fdiv (m : Int) (k : Int) = ((m / k : Nat) : Int) := by
  rw [Int.fdiv_eq_tdiv (by positivity) (by positivity), ← Int.ofNat_tdiv]

theorem int_emod_cast (m k : Nat) : Int.emod (m : Int) (k : Int) = ((m % k : Nat) : Int) :=
  (Int.natCast_mod m k).symm

theorem pad0_cast (w k : Nat) : pad0 w (k : Int) = padZeros w (natDigitChars k) := by
  unfold pad0
  rw [if_neg (by omega), Int.natAbs_ofNat]

theorem formatTimeChars_cast (m : Nat) :
    formatTimeChars (some (m : Int)) =
      padZeros 2 (natDigitChars (m / 1000 / 60 / 60)) ++ ':' ::
        (padZeros 2 (natDigitChars (m / 1000 / 60 % 60)) ++ ':' ::
          (padZeros 2 (natDigitChars (m / 1000 % 60)) ++ '.' ::
            padZeros 3 (natDigitChars (m % 1000)))) := by
  have e1000 : (1000 : Int) = ((1000 : Nat) : Int) := by norm_num
  have e60 : (60 : Int) = ((60 : Nat) : Int) := by norm_num
  simp only [formatTimeChars, e1000, e60, int_fdiv_cast, int_emod_cast, pad0_cast]
  simp [List.append_assoc]

/-- Parsing a string assembled from four nonempty digit-character fields
in the `H:M:S.ms` arrangement yields the encoded value. -/
theorem parse_of_components (A B C D : List Char)
    (hA : ∀ c ∈ A, c ∈ digitList) (hAne : A ≠ [])
    (hB : ∀ c ∈ B, c ∈ digitList) (hBne : B ≠ [])
    (hC : ∀ c ∈ C, c ∈ digitList) (hCne : C ≠ [])
    (hD : ∀ c ∈ D, c ∈ digitList) (hDne : D ≠ []) :
    parse_time ⟨A ++ ':' :: (B ++ ':' :: (C ++ '.' :: D))⟩ =
      some (((digitsToNat A : Int) * 3600 + (digitsToNat B : Int) * 60 +
        (digitsToNat C : Int)) * 1000 + (digitsToNat D : Int)) := by
  have hCD : ':' ∉ C ++ '.' :: D := by
    intro hmem
    rcases List.mem_append.mp hmem with h | h
    · exact (digitList_props _ (hC _ h)).2.2.1 rfl
    · rcases List.mem_cons.mp h with h | h
      · exact absurd h (by decide)
      · exact (digitList_props _ (hD _ h)).2.2.1 rfl
  have h1 : pySplitList ':' (A ++ ':' :: (B ++ ':' :: (C ++ '.' :: D))) =
      [A, B, C ++ '.' :: D] := by
    rw [pySplitList_append _ (not_mem_of_digits hA (by decide)),
      pySplitList_append _ (not_mem_of_digits hB (by decide)),
      pySplitList_of_not_mem hCD]
  have h2 : pySplitList '.' (C ++ '.' :: D) = [C, D] := by
    rw [pySplitList_append _ (not_mem_of_digits hC (by decide)),
      pySplitList_of_not_mem (not_mem_of_digits hD (by decide))]
  show parse_time ⟨A ++ ':' :: (B ++ ':' :: (C ++ '.' :: D))⟩ = _
  unfold parse_time pySplit
  rw [show (String.mk (A ++ ':' :: (B ++ ':' :: (C ++ '.' :: D)))).data =
    A ++ ':' :: (B ++ ':' :: (C ++ '.' :: D)) from rfl, h1]
  simp only [List.map_cons, List.map_nil]
  rw [h2]
  simp only [List.map_cons, List.map_nil]
  have pA : pyInt ⟨A⟩ = some (digitsToNat A : Int) := pyIntChars_of_digits hAne hA
  have pB : pyInt ⟨B⟩ = some (digitsToNat B : Int) := pyIntChars_of_digits hBne hB
  have pC : pyInt ⟨C⟩ = some (digitsToNat C : Int) := pyIntChars_of_digits hCne hC
  have pD : pyInt ⟨D⟩ = some (digitsToNat D : Int) := pyIntChars_of_digits hDne hD
  rw [pA, pB, pC, pD]

/-- C3 (confirmed): for every non-negative integer millisecond value `m`,
parsing the formatted `HH:MM:SS.mmm` text of `m` yields `m` back:
`parse_time (format_time m) = m`. -/
theorem parse_time_format_time_roundtrip (m : Nat) :
    parse_time (format_time (some (m : Int))) = some (m : Int) := by
  show parse_time ⟨formatTimeChars (some (m : Int))⟩ = some (m : Int)
  rw [formatTimeChars_cast]
  rw [parse_of_components _ _ _ _
    (padZeros_mem natDigitChars_mem) (padZeros_ne_nil natDigitChars_ne_nil)
    (padZeros_mem natDigitChars_mem) (padZeros_ne_nil natDigitChars_ne_nil)
    (padZeros_mem natDigitChars_mem) (padZeros_ne_nil natDigitChars_ne_nil)
    (padZeros_mem natDigitChars_mem) (padZeros_ne_nil natDigitChars_ne_nil)]
  simp only [digitsToNat_padZeros, digitsToNat_natDigitChars]
  congr 1
  have harith : ((m / 1000 / 60 / 60) * 3600 + (m / 1000 / 60 % 60) * 60 +
      m / 1000 % 60) * 1000 + m % 1000 = m := by omega
  exact_mod_cast congrArg (Nat.cast : Nat → Int) harith

/-- C8 (counterexample): the claim "the parser accepts exactly the
canonical `HH:MM:SS.mmm` shape and yields a non-negative value; every
other shape fails" is false: `"0:0:0.0"` is not of the canonical shape
yet parses to `0`, and `"-1:00:00.000"` parses to the negative value
`-3600000` instead of failing. -/
theorem parse_time_lenient_counterexample :
    parse_time "0:0:0.0" = some 0 ∧ ¬ canonicalShape "0:0:0.0" ∧
      parse_time "-1:00:00.000" = some (-3600000) ∧ (-3600000 : Int) < 0 := by
  refine ⟨by decide, ?_, by decide, by decide⟩
  rintro ⟨H, M, S, MS, hdata, hH, hM, hS, hMS, -, -, -, -⟩
  have hlen : ("0:0:0.0" : String).data.length = 7 := by decide
  rw [hdata] at hlen
  simp only [List.length_append, List.length_cons] at hlen
  omega

/-- C8 (amended): every canonical `HH:MM:SS.mmm` string is accepted by
the parser and yields a non-negative millisecond value, but the parser
is more lenient than the canonical shape: it also accepts other field
widths and signed fields (which can produce negative values), and fails
only on strings that do not split into `h:m:s.ms` integer-parsable
fields. -/
theorem parse_time_canonical_accepted :
    (∀ s : String, canonicalShape s → ∃ v : Int, parse_time s = some v ∧ 0 ≤ v) ∧
      parse_time "0:0:0.0" = some 0 ∧
      parse_time "-1:00:00.000" = some (-3600000) ∧
      parse_time "00:00:30" = none ∧ parse_time "a:b:c.d" = none := by
  refine ⟨?_, by decide, by decide, by decide, by decide⟩
  rintro s ⟨H, M, S, MS, hdata, hHl, hMl, hSl, hMSl, hH, hM, hS, hMS⟩
  obtain ⟨data⟩ := s
  simp only [String.data] at hdata
  subst hdata
  refine ⟨_, parse_of_components H M S MS hH (by rintro rfl; simp at hHl)
    hM (by rintro rfl; simp at hMl) hS (by rintro rfl; simp at hSl)
    hMS (by rintro rfl; simp at hMSl), by omega⟩

/-- C8 witness: the canonical string `"00:00:30.000"` is accepted. -/
theorem parse_time_canonical_accepted_witness :
    canonicalShape "00:00:30.000" ∧
      ∃ v : Int, parse_time "00:00:30.000" = some v ∧ 0 ≤ v :=
  ⟨⟨['0', '0'], ['0', '0'], ['3', '0'], ['0', '0', '0'], by decide, by decide,
      by decide, by decide, by decide, by decide, by decide, by decide, by decide⟩,
    parse_time_canonical_accepted.1 "00:00:30.000"
      ⟨['0', '0'], ['0', '0'], ['3', '0'], ['0', '0', '0'], by decide, by decide,
        by decide, by decide, by decide, by decide, by decide, by decide, by decide⟩⟩

/-! ### Lemmas: `modifyAt` -/

theorem modifyAt_length (f : SplitPoint → SplitPoint) :
    ∀ (i : Nat) (l : List SplitPoint), (modifyAt f i l).length = l.length := by
  intro i l
  induction l generalizing i with
  | nil => cases i <;> rfl
  | cons p rest ih =>
    cases i with
    | zero => rfl
    | succ i => simp [modifyAt, ih]

theorem modifyAt_ge (f : SplitPoint → SplitPoint) :
    ∀ (i : Nat) (l : List SplitPoint), l.length ≤ i → modifyAt f i l = l := by
  intro i l
  induction l generalizing i with
  | nil => intro _; cases i <;> rfl
  | cons p rest ih =>
    intro h
    cases i with
    | zero => simp at h
    | succ i => simp only [modifyAt]; rw [ih i (by simpa using h)]

theorem modifyAt_append_left (f : SplitPoint → SplitPoint) :
    ∀ (i : Nat) (xs ys : List SplitPoint), i < xs.length →
      modifyAt f i (xs ++ ys) = modifyAt f i xs ++ ys := by
  intro i xs
  induction xs generalizing i with
  | nil => intro ys h; simp at h
  | cons p rest ih =>
    intro ys h
    cases i with
    | zero => rfl
    | succ i =>
      simp only [List.cons_append, modifyAt]
      show p :: modifyAt f i (rest ++ ys) = p :: (modifyAt f i rest ++ ys)
      rw [ih i ys (by simpa using h)]

theorem getD_modifyAt_eq (f : SplitPoint → SplitPoint) (d : SplitPoint) :
    ∀ (i : Nat) (l : List SplitPoint), i < l.length →
      (modifyAt f i l).getD i d = f (l.getD i d) := by
  intro i l
  induction l generalizing i with
  | nil => intro h; simp at h
  | cons p rest ih =>
    intro h
    cases i with
    | zero => rfl
    | succ i => simpa [modifyAt] using ih i (by simpa using h)

theorem getD_modifyAt_ne (f : SplitPoint → SplitPoint) (d : SplitPoint) :
    ∀ (i j : Nat) (l : List SplitPoint), i ≠ j →
      (modifyAt f i l).getD j d = l.getD j d := by
  intro i j l
  induction l generalizing i j with
  | nil => intro _; cases i <;> rfl
  | cons p rest ih =>
    intro hij
    cases i with
    | zero =>
      cases j with
      | zero => exact absurd rfl hij
      | succ j => rfl
    | succ i =>
      cases j with
      | zero => rfl
      | succ j => simpa [modifyAt] using ih i j (by omega)

theorem getD_length_sub_one {l : List SplitPoint} (h : l ≠ []) (d : SplitPoint) :
    l.getD (l.length - 1) d = l.getLast h := by
  rw [List.getLast_eq_getElem,
    List.getD_eq_getElem l d (by have := List.length_pos.mpr h; omega)]

/-! ### C1: behaviour of `add_split_point` -/

/-- Re-assigning the last point's `end_time` with its own current value
is the identity. -/
theorem modifyAt_last_end_self :
    ∀ (pts : List SplitPoint) (h : pts ≠ []),
      modifyAt (fun p => { p with end_time := (pts.getLast h).end_time })
        (pts.length - 1) pts = pts := by
  intro pts
  induction pts with
  | nil => intro h; exact absurd rfl h
  | cons p rest ih =>
    intro _
    cases rest with
    | nil => rfl
    | cons q rest' =>
      have hne' : q :: rest' ≠ [] := by simp
      have hcast : (p :: q :: rest').getLast (by simp) = (q :: rest').getLast hne' :=
        List.getLast_cons hne'
      show modifyAt _ ((p :: q :: rest').length - 1) _ = _
      rw [show (p :: q :: rest').length - 1 = ((q :: rest').length - 1) + 1 by simp]
      simp only [modifyAt, hcast]
      rw [ih hne']

/-- `add_split_point` is a plain append: the rewrite of the previous
last point's `end_time` writes back its own current value. -/
theorem add_split_point_eq (pts : List SplitPoint) (t : Int) :
    add_split_point pts t =
      pts ++ [⟨(match pts.getLast? with
                | none => some 0
                | some p => p.end_time), some t, true⟩] := by
  match hl : pts.getLast? with
  | none =>
    rw [List.getLast?_eq_none_iff] at hl
    subst hl
    rfl
  | some last =>
    have hne : pts ≠ [] := by
      intro hcon; subst hcon; simp at hl
    have hlast : pts.getLast hne = last := by
      have := List.getLast?_eq_getLast pts hne
      rw [hl] at this
      exact (Option.some_inj.mp this).symm
    have key : add_split_point pts t =
        modifyAt (fun p => { p with end_time := last.end_time })
          ((pts ++ [(⟨last.end_time, some t, true⟩ : SplitPoint)]).length - 2)
          (pts ++ [(⟨last.end_time, some t, true⟩ : SplitPoint)]) := by
      unfold add_split_point
      rw [hl]
    rw [key]
    have hlen : (pts ++ [(⟨last.end_time, some t, true⟩ : SplitPoint)]).length - 2 =
        pts.length - 1 := by
      simp [List.length_append]
    rw [hlen, modifyAt_append_left _ _ _ _
      (by have := List.length_pos.mpr hne; omega),
      ← hlast, modifyAt_last_end_self pts hne]

/-- C1 (counterexample): the claim predicts that after
`addPoint(30000); addPoint(60000)` the first interval's end is `60000`
and the new interval is `{start: 60000, end: unset}`; the code instead
leaves the first interval at `{0, 30000}` and appends `{30000, 60000}`
with its end set. -/
theorem add_split_point_counterexample :
    add_split_point (add_split_point [] 30000) 60000 =
      [⟨some 0, some 30000, true⟩, ⟨some 30000, some 60000, true⟩] ∧
    add_split_point (add_split_point [] 30000) 60000 ≠
      [⟨some 0, some 60000, true⟩, ⟨some 60000, none, true⟩] ∧
    ((add_split_point (add_split_point [] 30000) 60000).getLast?.map
      SplitPoint.end_time) ≠ some none := by
  decide

/-- C1 (amended): `addPoint(t)` on an empty list appends the single
interval `{start: 0, end: t}`; on a non-empty list it appends
`{start: previous last's endMs, end: t}` and leaves every existing
interval unchanged (the code's write to the previous interval's `endMs`
re-assigns its current value); after any `addPoint` the last interval's
end is `t` (set), never unset. -/
theorem add_split_point_spec (pts : List SplitPoint) (t : Int) :
    (pts = [] → add_split_point pts t = [⟨some 0, some t, true⟩]) ∧
    (∀ h : pts ≠ [], add_split_point pts t =
      pts ++ [⟨(pts.getLast h).end_time, some t, true⟩]) ∧
    ((add_split_point pts t).getLast?.map SplitPoint.end_time) = some (some t) := by
  refine ⟨?_, ?_, ?_⟩
  · rintro rfl; rfl
  · intro h
    rw [add_split_point_eq, List.getLast?_eq_getLast pts h]
  · rw [add_split_point_eq, List.getLast?_concat]
    rfl

/-- C1 witness: the amended description at concrete inputs. -/
theorem add_split_point_spec_witness :
    add_split_point [] 5 = [⟨some 0, some 5, true⟩] ∧
    add_split_point [⟨some 0, some 5, true⟩] 7 =
      [⟨some 0, some 5, true⟩, ⟨some 5, some 7, true⟩] :=
  ⟨(add_split_point_spec [] 5).1 rfl, by
    have h := (add_split_point_spec [⟨some 0, some 5, true⟩] 7).2.1 (by simp)
    simpa using h⟩

/-! ### C9: failed parses leave the table untouched -/

/-- C9 (confirmed): when `parse_time` fails on the edited text,
`cell_edited` leaves the split-point list exactly as it was, for every
row, column and text. -/
theorem cell_edited_parse_failure (pts : List SplitPoint) (row column : Nat)
    (text : String) (h : parse_time text = none) :
    cell_edited pts row column text = pts := by
  unfold cell_edited
  split
  · rfl
  · rw [h]

/-- C9 witness: a concrete failing edit. -/
theorem cell_edited_parse_failure_witness :
    parse_time "abc" = none ∧
      cell_edited [⟨some 0, some 5, true⟩] 0 1 "abc" = [⟨some 0, some 5, true⟩] :=
  ⟨by decide, cell_edited_parse_failure [⟨some 0, some 5, true⟩] 0 1 "abc" (by decide)⟩

/-! ### C7: the gapless-chain invariant -/

theorem start_modifyAt_setEnd (v : Int) (i : Nat) (pts : List SplitPoint) (k : Nat) :
    ((modifyAt (fun p => { p with end_time := some v }) i pts).getD k dfl).start_time =
      (pts.getD k dfl).start_time := by
  by_cases hk : i = k
  · subst hk
    by_cases hi : i < pts.length
    · rw [getD_modifyAt_eq _ _ _ _ hi]
    · rw [modifyAt_ge _ _ _ (by omega)]
  · rw [getD_modifyAt_ne _ _ _ _ _ hk]

theorem end_modifyAt_setStart (v : Int) (i : Nat) (pts : List SplitPoint) (k : Nat) :
    ((modifyAt (fun p => { p with start_time := some v }) i pts).getD k dfl).end_time =
      (pts.getD k dfl).end_time := by
  by_cases hk : i = k
  · subst hk
    by_cases hi : i < pts.length
    · rw [getD_modifyAt_eq _ _ _ _ hi]
    · rw [modifyAt_ge _ _ _ (by omega)]
  · rw [getD_modifyAt_ne _ _ _ _ _ hk]

theorem chainOK_add {pts : List SplitPoint} (t : Int) (h : chainOK pts) :
    chainOK (add_split_point pts t) := by
  rw [add_split_point_eq]
  intro j hj
  rw [List.length_append, List.length_cons, List.length_nil] at hj
  by_cases hcase : j + 1 < pts.length
  · rw [List.getD_append _ _ _ _ (by omega), List.getD_append _ _ _ _ hcase]
    exact h j hcase
  · have hj1 : j + 1 = pts.length := by omega
    have hne : pts ≠ [] := by
      intro hcon; subst hcon; simp at hj1
    rw [List.getD_append _ _ _ _ (by omega),
      List.getD_append_right _ _ _ _ (by omega),
      show j + 1 - pts.length = 0 by omega]
    show (pts.getD j dfl).end_time =
      (match pts.getLast? with | none => some 0 | some p => p.end_time)
    rw [List.getLast?_eq_getLast pts hne]
    have hjv : j = pts.length - 1 := by omega
    subst hjv
    rw [getD_length_sub_one hne]

theorem headOK_add {pts : List SplitPoint} (t : Int) (h : headOK pts) :
    headOK (add_split_point pts t) := by
  rw [add_split_point_eq]
  cases pts with
  | nil => right; rfl
  | cons p rest =>
    rcases h with h | h
    · simp at h
    · right
      rw [List.getD_append _ _ _ _ (by simp)]
      exact h

theorem chainOK_edit {pts : List SplitPoint} (row column : Nat) (text : String)
    (h : chainOK pts) : chainOK (cell_edited pts row column text) := by
  unfold cell_edited
  split
  · exact h
  · rename_i hguard
    push_neg at hguard
    obtain ⟨hrow, -⟩ := hguard
    split
    · exact h
    · rename_i v heq
      dsimp only
      split
      · -- column = 1
        split
        · -- 0 < row : set start at row, set end at row - 1
          rename_i hpos
          intro j hj
          rw [modifyAt_length, modifyAt_length] at hj
          rw [start_modifyAt_setEnd]
          by_cases hjr : j = row - 1
          · subst hjr
            rw [getD_modifyAt_eq _ _ _ _ (by rw [modifyAt_length]; omega)]
            rw [show row - 1 + 1 = row by omega,
              getD_modifyAt_eq _ _ _ _ (by omega)]
          · rw [getD_modifyAt_ne _ _ _ _ _ (by omega),
              end_modifyAt_setStart,
              getD_modifyAt_ne _ _ _ _ _ (by omega)]
            exact h j hj
        · -- row = 0 : only the start of row 0 changes
          rename_i hzero
          intro j hj
          rw [modifyAt_length] at hj
          rw [end_modifyAt_setStart, getD_modifyAt_ne _ _ _ _ _ (by omega)]
          exact h j hj
      · -- column = 2
        split
        · -- row < length - 1 : set end at row, set start at row + 1
          rename_i hlt
          intro j hj
          rw [modifyAt_length, modifyAt_length] at hj
          by_cases hjr : j = row
          · subst hjr
            rw [end_modifyAt_setStart,
              getD_modifyAt_eq _ _ _ _ (by omega),
              getD_modifyAt_eq _ _ _ _ (by rw [modifyAt_length]; omega)]
          · rw [end_modifyAt_setStart,
              getD_modifyAt_ne _ _ _ _ _ (by omega),
              getD_modifyAt_ne _ _ _ _ _ (by omega),
              start_modifyAt_setEnd]
            exact h j hj
        · -- last row : only its end changes
          rename_i hge
          rw [Nat.not_lt] at hge
          intro j hj
          rw [modifyAt_length] at hj
          rw [start_modifyAt_setEnd,
            getD_modifyAt_ne _ _ _ _ _ (by omega)]
          exact h j hj

theorem headOK_edit {pts : List SplitPoint} (row column : Nat) (text : String)
    (hop : ¬(row = 0 ∧ column = 1)) (h : headOK pts) :
    headOK (cell_edited pts row column text) := by
  unfold cell_edited
  split
  · exact h
  · rename_i hguard
    push_neg at hguard
    obtain ⟨hrow, -⟩ := hguard
    have hne : (pts.getD 0 dfl).start_time = some 0 := by
      rcases h with h | h
      · subst h; simp at hrow
      · exact h
    split
    · exact h
    · rename_i v heq
      dsimp only
      split
      · -- column = 1, hence row > 0
        rename_i hcol
        have hpos : 0 < row := by
          rcases Nat.eq_zero_or_pos row with hz | hz
          · exact absurd ⟨hz, hcol⟩ hop
          · exact hz
        rw [if_pos hpos]
        right
        rw [start_modifyAt_setEnd, getD_modifyAt_ne _ _ _ _ _ (by omega)]
        exact hne
      · -- column = 2
        split
        · right
          rw [getD_modifyAt_ne _ _ _ _ _ (by omega), start_modifyAt_setEnd]
          exact hne
        · right
          rw [start_modifyAt_setEnd]
          exact hne

theorem chainOK_applyOp (pts : List SplitPoint) (op : TableOp) (h : chainOK pts) :
    chainOK (applyOp pts op) := by
  cases op with
  | add t => exact chainOK_add t h
  | edit row column text => exact chainOK_edit row column text h

theorem headOK_applyOp (pts : List SplitPoint) (op : TableOp)
    (hop : editsHeadStart op = false) (h : headOK pts) : headOK (applyOp pts op) := by
  cases op with
  | add t => exact headOK_add t h
  | edit row column text =>
    refine headOK_edit row column text ?_ h
    rintro ⟨rfl, rfl⟩
    simp [editsHeadStart] at hop

theorem chainOK_foldl :
    ∀ (ops : List TableOp) (pts : List SplitPoint), chainOK pts →
      chainOK (ops.foldl applyOp pts) := by
  intro ops
  induction ops with
  | nil => intro pts h; exact h
  | cons op ops ih =>
    intro pts h
    exact ih _ (chainOK_applyOp pts op h)

theorem headOK_foldl :
    ∀ (ops : List TableOp) (pts : List SplitPoint),
      (∀ op ∈ ops, editsHeadStart op = false) → headOK pts →
        headOK (ops.foldl applyOp pts) := by
  intro ops
  induction ops with
  | nil => intro pts _ h; exact h
  | cons op ops ih =>
    intro pts hops h
    exact ih _ (fun o ho => hops o (List.mem_cons_of_mem op ho))
      (headOK_applyOp pts op (hops op (List.mem_cons_self op ops)) h)

/-- C7 (counterexample): the claim's conjunct `intervals[0].startMs == 0`
fails for sequences that edit interval 0's start boundary: after
`addPoint(10000)` and a successful edit of row 0's start cell to
`"00:00:00.005"`, the first interval starts at 5, not 0. -/
theorem sequencer_invariant_counterexample :
    applyOps [TableOp.add 10000, TableOp.edit 0 1 "00:00:00.005"] =
      [⟨some 5, some 10000, true⟩] ∧
    ((applyOps [TableOp.add 10000, TableOp.edit 0 1 "00:00:00.005"]).getD 0
      dfl).start_time ≠ some 0 := by
  decide

/-- C7 (amended): after any sequence of `addPoint` and (successful or
failed) `editBoundary` calls from the empty list, consecutive intervals
satisfy `intervals[j].endMs == intervals[j+1].startMs`; the conjunct
`intervals[0].startMs == 0` additionally holds whenever no operation of
the sequence edits interval 0's start cell; and the boundary edits
propagate: editing `endMs` of a non-last interval writes the next
interval's `startMs`, and editing `startMs` of interval `row > 0` writes
the previous interval's `endMs`. -/
theorem sequencer_invariants :
    (∀ ops : List TableOp, chainOK (applyOps ops)) ∧
    (∀ ops : List TableOp, (∀ op ∈ ops, editsHeadStart op = false) →
      headOK (applyOps ops)) ∧
    (∀ (pts : List SplitPoint) (row : Nat) (text : String) (v : Int),
      parse_time text = some v → row + 1 < pts.length →
      ((cell_edited pts row 2 text).getD (row + 1) dfl).start_time = some v) ∧
    (∀ (pts : List SplitPoint) (row : Nat) (text : String) (v : Int),
      parse_time text = some v → 0 < row → row < pts.length →
      ((cell_edited pts row 1 text).getD (row - 1) dfl).end_time = some v) := by
  refine ⟨?_, ?_, ?_, ?_⟩
  · intro ops
    exact chainOK_foldl ops [] (by intro j hj; simp at hj)
  · intro ops hops
    exact headOK_foldl ops [] hops (Or.inl rfl)
  · intro pts row text v hv hlt
    unfold cell_edited
    rw [if_neg (by rw [not_or]; exact ⟨by omega, by simp⟩), hv]
    dsimp only
    rw [if_neg (by decide : ¬((2 : Nat) = 1)), if_pos (by omega : row < pts.length - 1),
      getD_modifyAt_eq _ _ _ _ (by rw [modifyAt_length]; omega)]
  · intro pts row text v hv hpos hlt
    unfold cell_edited
    rw [if_neg (by rw [not_or]; exact ⟨by omega, by simp⟩), hv]
    dsimp only
    rw [if_pos rfl, if_pos hpos,
      getD_modifyAt_eq _ _ _ _ (by rw [modifyAt_length]; omega)]

/-- C7 witness: the amended invariants at concrete inputs. -/
theorem sequencer_invariants_witness :
    chainOK (applyOps [TableOp.add 10, TableOp.add 20]) ∧
    headOK (applyOps [TableOp.add 10, TableOp.add 20]) ∧
    ((cell_edited [⟨some 0, some 9, true⟩, ⟨some 9, some 20, true⟩] 0 2
      "00:00:00.010").getD 1 dfl).start_time = some 10 ∧
    ((cell_edited [⟨some 0, some 9, true⟩, ⟨some 9, some 20, true⟩] 1 1
      "00:00:00.010").getD 0 dfl).end_time = some 10 :=
  ⟨sequencer_invariants.1 [TableOp.add 10, TableOp.add 20],
    sequencer_invariants.2.1 [TableOp.add 10, TableOp.add 20] (by decide),
    sequencer_invariants.2.2.1 _ 0 "00:00:00.010" 10 (by decide) (by decide),
    sequencer_invariants.2.2.2 _ 1 "00:00:00.010" 10 (by decide) (by decide) (by decide)⟩

/-! ### Lemmas: the `split_video` segment loop -/

theorem splitLoop_ok (env : EncodeEnv) (base od : String) (total : Nat) :
    ∀ (pts : List SplitPoint) (i : Nat), allSet pts →
      (∀ j, j < pts.length → env.encodeError (i + j) = none) →
      splitLoop env base od total i pts =
        ⟨okEvents base total i pts.length, segCalls pts,
          segPaths od base i pts.length, true⟩ := by
  intro pts
  induction pts with
  | nil => intro i _ _; rfl
  | cons p rest ih =>
    intro i hset henc
    obtain ⟨hst, hen⟩ := hset p (List.mem_cons_self p rest)
    cases hstv : p.start_time with
    | none => exact absurd hstv hst
    | some st =>
      cases henv : p.end_time with
      | none => exact absurd henv hen
      | some en =>
        have h0 : env.encodeError i = none := by
          have := henc 0 (by simp)
          rwa [Nat.add_zero] at this
        have hrec := ih (i + 1)
          (fun q hq => hset q (List.mem_cons_of_mem p hq))
          (fun j hj => by
            have := henc (j + 1) (by simpa using Nat.succ_lt_succ hj)
            rw [show i + 1 + j = i + (j + 1) from by omega]
            exact this)
        unfold splitLoop
        rw [hstv, henv, h0, hrec]
        simp [okEvents, segCalls, segPaths, hstv, henv]

theorem splitLoop_fail (env : EncodeEnv) (base od : String) (total : Nat)
    (msg : String) :
    ∀ (pts : List SplitPoint) (i k : Nat), allSet pts → k < pts.length →
      (∀ j, j < k → env.encodeError (i + j) = none) →
      env.encodeError (i + k) = some msg →
      splitLoop env base od total i pts =
        ⟨okEvents base total i (k + 1) ++
            [Event.errorOccurred ("Error splitting video: " ++ msg)],
          segCalls (pts.take (k + 1)), segPaths od base i k, false⟩ := by
  intro pts
  induction pts with
  | nil => intro i k _ hk; simp at hk
  | cons p rest ih =>
    intro i k hset hk hok hfail
    obtain ⟨hst, hen⟩ := hset p (List.mem_cons_self p rest)
    cases hstv : p.start_time with
    | none => exact absurd hstv hst
    | some st =>
      cases henv : p.end_time with
      | none => exact absurd henv hen
      | some en =>
        cases k with
        | zero =>
          rw [Nat.add_zero] at hfail
          unfold splitLoop
          rw [hstv, henv, hfail]
          simp [okEvents, segCalls, segPaths, hstv, henv]
        | succ k =>
          have h0 : env.encodeError i = none := by
            have := hok 0 (by omega)
            rwa [Nat.add_zero] at this
          have hrec := ih (i + 1) k
            (fun q hq => hset q (List.mem_cons_of_mem p hq))
            (by simpa using hk)
            (fun j hj => by
              have := hok (j + 1) (by omega)
              rw [show i + 1 + j = i + (j + 1) from by omega]
              exact this)
            (by rw [show i + 1 + k = i + (k + 1) from by omega]; exact hfail)
          unfold splitLoop
          rw [hstv, henv, h0, hrec]
          simp [okEvents, segCalls, segPaths, hstv, henv]

theorem completed_not_mem_splitLoop (env : EncodeEnv) (base od : String)
    (total : Nat) :
    ∀ (pts : List SplitPoint) (i : Nat),
      Event.splittingCompleted ∉ (splitLoop env base od total i pts).events := by
  intro pts
  induction pts with
  | nil => intro i h; simp [splitLoop] at h
  | cons p rest ih =>
    intro i
    unfold splitLoop
    cases p.start_time with
    | none => simp
    | some st =>
      cases p.end_time with
      | none => simp
      | some en =>
        cases env.encodeError i with
        | none =>
          intro h
          simp only [List.mem_append, List.mem_cons, List.mem_singleton] at h
          rcases h with (h | h | h) | h
          · exact Event.noConfusion h
          · exact Event.noConfusion h
          · simp at h
          · exact ih (i + 1) h
        | some msg => simp

theorem completed_not_mem_okEvents (base : String) (total : Nat) :
    ∀ (k i : Nat), Event.splittingCompleted ∉ okEvents base total i k := by
  intro k
  induction k with
  | zero => intro i h; simp [okEvents] at h
  | succ k ih =>
    intro i h
    simp only [okEvents, List.mem_cons] at h
    rcases h with h | h | h
    · exact Event.noConfusion h
    · exact Event.noConfusion h
    · exact ih (i + 1) h

theorem progress_mem_okEvents (base : String) (total : Nat) :
    ∀ (k i c t' : Nat), Event.progressUpdated c t' ∈ okEvents base total i k →
      c < i + k ∧ t' = total := by
  intro k
  induction k with
  | zero => intro i c t' h; simp [okEvents] at h
  | succ k ih =>
    intro i c t' h
    simp only [okEvents, List.mem_cons] at h
    rcases h with h | h | h
    · exact Event.noConfusion h
    · obtain ⟨hc, ht⟩ := Event.progressUpdated.inj h
      omega
    · have := ih (i + 1) c t' h
      omega

theorem resolveLast_length (pts : List SplitPoint) (d : Int) :
    (resolveLast pts d).length = pts.length := by
  unfold resolveLast
  split
  · rename_i last heq
    have hne : pts ≠ [] := by intro hcon; subst hcon; simp at heq
    split
    · rw [List.length_append, List.length_dropLast, List.length_singleton]
      have := List.length_pos.mpr hne
      omega
    · rfl
  · rfl

theorem resolveLast_spec (pts : List SplitPoint) (d : Int) (h : pts ≠ []) :
    resolveLast pts d =
      (if (pts.getLast h).end_time = none
       then pts.dropLast ++ [{ pts.getLast h with end_time := some d }]
       else pts) := by
  unfold resolveLast
  rw [List.getLast?_eq_getLast pts h]

theorem isEmpty_false_of_ne_nil {pts : List SplitPoint} (h : pts ≠ []) :
    pts.isEmpty = false := by
  cases pts with
  | nil => exact absurd rfl h
  | cons p rest => rfl

/-! ### C5: the successful export run -/

/-- C5 (confirmed): a successful export over `n` selected intervals
processes them in original list order, names the `i`-th output file
`<base>_split_<i>.mp4` (1-based over the selected intervals), and emits
exactly `SegmentStarted(i, name_i)`, `Progress(i-1, n)` per segment,
then `Progress(n, n)` and `Completed`. -/
theorem split_video_success (vp od : Option String) (env : EncodeEnv)
    (pts : List SplitPoint)
    (hvp : pyFalsyStr vp = false) (hod : pyFalsyStr od = false) (hne : pts ≠ [])
    (hset : allSet (resolveLast pts env.durationMs)) (hopen : env.openError = none)
    (henc : ∀ j, j < pts.length → env.encodeError j = none) :
    split_video vp od env pts =
      ⟨okEvents (py_stem (py_basename (vp.getD ""))) pts.length 0 pts.length ++
          [Event.progressUpdated pts.length pts.length, Event.splittingCompleted],
        segCalls (resolveLast pts env.durationMs),
        segPaths (od.getD "") (py_stem (py_basename (vp.getD ""))) 0 pts.length,
        resolveLast pts env.durationMs, true, true⟩ := by
  unfold split_video
  rw [hvp, hod, hopen, isEmpty_false_of_ne_nil hne]
  rw [if_neg (by decide), if_neg (by decide)]
  dsimp only
  rw [splitLoop_ok env _ _ _ _ 0 hset (fun j hj => by
    rw [Nat.zero_add]
    exact henc j (by rwa [resolveLast_length] at hj))]
  rw [resolveLast_length]
  rfl

/-- C5 witness: the spec's two-segment scenario. -/
theorem split_video_success_witness :
    split_video (some "/a/name.mp4") (some "/out")
      ⟨none, 90000, 640, 480, 30, fun _ => none⟩
      [⟨some 0, some 30000, true⟩, ⟨some 30000, some 60000, true⟩] =
      ⟨[Event.segmentStarted 1 "name_split_1.mp4", Event.progressUpdated 0 2,
          Event.segmentStarted 2 "name_split_2.mp4", Event.progressUpdated 1 2,
          Event.progressUpdated 2 2, Event.splittingCompleted],
        [(0, 30000), (30000, 60000)],
        ["/out/name_split_1.mp4", "/out/name_split_2.mp4"],
        [⟨some 0, some 30000, true⟩, ⟨some 30000, some 60000, true⟩],
        true, true⟩ := by
  rw [split_video_success _ _ _ _ (by decide) (by decide) (by decide) (by decide)
    rfl (fun j hj => rfl)]
  decide

/-! ### C4: abort on encoder failure -/

/-- C4 (confirmed): if the encoder fails on the 0-based segment index
`k` of `n`, the run consists of exactly the notifications for segments
`1..k+1` followed by the `Error` notification carrying the cause; no
later segment is started or sent to the encoder (`calls` stops at
`k+1`), no `Completed` and no `Progress(n, n)` is emitted, and the files
of the `k` completed prior segments are left in place. -/
theorem split_video_encoder_failure (vp od : Option String) (env : EncodeEnv)
    (pts : List SplitPoint) (k : Nat) (msg : String)
    (hvp : pyFalsyStr vp = false) (hod : pyFalsyStr od = false) (hne : pts ≠ [])
    (hset : allSet (resolveLast pts env.durationMs)) (hopen : env.openError = none)
    (hk : k < pts.length)
    (hpre : ∀ j, j < k → env.encodeError j = none)
    (hfail : env.encodeError k = some msg) :
    split_video vp od env pts =
      ⟨okEvents (py_stem (py_basename (vp.getD ""))) pts.length 0 (k + 1) ++
          [Event.errorOccurred ("Error splitting video: " ++ msg)],
        segCalls ((resolveLast pts env.durationMs).take (k + 1)),
        segPaths (od.getD "") (py_stem (py_basename (vp.getD ""))) 0 k,
        resolveLast pts env.durationMs, true, false⟩ ∧
    Event.splittingCompleted ∉ (split_video vp od env pts).events ∧
    Event.progressUpdated pts.length pts.length ∉ (split_video vp od env pts).events := by
  have heq : split_video vp od env pts =
      ⟨okEvents (py_stem (py_basename (vp.getD ""))) pts.length 0 (k + 1) ++
          [Event.errorOccurred ("Error splitting video: " ++ msg)],
        segCalls ((resolveLast pts env.durationMs).take (k + 1)),
        segPaths (od.getD "") (py_stem (py_basename (vp.getD ""))) 0 k,
        resolveLast pts env.durationMs, true, false⟩ := by
    unfold split_video
    rw [hvp, hod, hopen, isEmpty_false_of_ne_nil hne]
    rw [if_neg (by decide), if_neg (by decide)]
    dsimp only
    rw [splitLoop_fail env _ _ _ msg _ 0 k hset
      (by rwa [resolveLast_length])
      (fun j hj => by rw [Nat.zero_add]; exact hpre j hj)
      (by rw [Nat.zero_add]; exact hfail)]
    rw [resolveLast_length]
    rfl
  refine ⟨heq, ?_, ?_⟩
  · rw [heq]
    intro hmem
    simp only [List.mem_append, List.mem_singleton] at hmem
    rcases hmem with hmem | hmem
    · exact completed_not_mem_okEvents _ _ _ _ hmem
    · exact Event.noConfusion hmem
  · rw [heq]
    intro hmem
    simp only [List.mem_append, List.mem_singleton] at hmem
    rcases hmem with hmem | hmem
    · have := progress_mem_okEvents _ _ _ _ _ _ hmem
      omega
    · exact Event.noConfusion hmem

/-- C4 witness: the spec's scenario, the second of three segments fails. -/
theorem split_video_encoder_failure_witness :
    Event.splittingCompleted ∉
      (split_video (some "/a/name.mp4") (some "/out")
        ⟨none, 90000, 640, 480, 30, fun j => if j = 1 then some "boom" else none⟩
        [⟨some 0, some 10, true⟩, ⟨some 10, some 20, true⟩,
          ⟨some 20, some 30, true⟩]).events :=
  (split_video_encoder_failure (some "/a/name.mp4") (some "/out")
    ⟨none, 90000, 640, 480, 30, fun j => if j = 1 then some "boom" else none⟩
    [⟨some 0, some 10, true⟩, ⟨some 10, some 20, true⟩, ⟨some 20, some 30, true⟩]
    1 "boom" (by decide) (by decide) (by decide) (by decide) rfl (by decide)
    (by decide) (by decide)).2.1

/-! ### C6: configuration guards -/

/-- C6 (confirmed): with an unset (or empty) source path or output
directory, or with an empty selection, `split_video` emits only the
corresponding configuration `Error` notification and returns: no
segment or progress notification, no encoder call, no file, and the
split-point list is untouched. -/
theorem split_video_config_errors (vp od : Option String) (env : EncodeEnv)
    (pts : List SplitPoint) :
    ((pyFalsyStr vp || pyFalsyStr od) = true →
      split_video vp od env pts =
        ⟨[Event.errorOccurred "Video path or output directory not set"], [], [],
          pts, false, false⟩) ∧
    (pyFalsyStr vp = false → pyFalsyStr od = false → pts = [] →
      split_video vp od env pts =
        ⟨[Event.errorOccurred "No split points defined"], [], [], pts,
          false, false⟩) := by
  constructor
  · intro h
    unfold split_video
    rw [if_pos h]
  · intro h1 h2 h3
    subst h3
    unfold split_video
    rw [h1, h2]
    rfl

/-- C6 witness: missing output directory, and empty selection. -/
theorem split_video_config_errors_witness :
    split_video (some "/a/name.mp4") none ⟨none, 0, 0, 0, 0, fun _ => none⟩
      [⟨some 0, some 1, true⟩] =
      ⟨[Event.errorOccurred "Video path or output directory not set"], [], [],
        [⟨some 0, some 1, true⟩], false, false⟩ ∧
    split_video (some "/a/name.mp4") (some "/out") ⟨none, 0, 0, 0, 0, fun _ => none⟩
      [] =
      ⟨[Event.errorOccurred "No split points defined"], [], [], [], false, false⟩ :=
  ⟨(split_video_config_errors (some "/a/name.mp4") none
      ⟨none, 0, 0, 0, 0, fun _ => none⟩ [⟨some 0, some 1, true⟩]).1 rfl,
    (split_video_config_errors (some "/a/name.mp4") (some "/out")
      ⟨none, 0, 0, 0, 0, fun _ => none⟩ []).2 rfl rfl rfl⟩

/-! ### C2: release of the video resource -/

/-- C2 (counterexample): the video resource is not released on every
exit path: with one selected interval and an encoder that fails, the
resource is opened but `video.close()` is never reached (the `except`
block does not close it). -/
theorem resource_leak_counterexample :
    (split_video (some "a.mp4") (some "o")
      ⟨none, 90000, 0, 0, 0, fun _ => some "boom"⟩
      [⟨some 0, some 1000, true⟩]).opened = true ∧
    (split_video (some "a.mp4") (some "o")
      ⟨none, 90000, 0, 0, 0, fun _ => some "boom"⟩
      [⟨some 0, some 1000, true⟩]).closed = false := by
  decide

/-- C2 (amended): `get_video_info` does release the resource whenever it
was opened (the only failure point precedes the open); `split_video`
releases it exactly on the fully successful runs — the ones that emit
`Completed` — and leaks it when the encoder or the per-segment
conversion fails after a successful open. -/
theorem resource_release_characterization :
    (∀ (vp : Option String) (env : EncodeEnv),
      (get_video_info vp env).opened = true →
        (get_video_info vp env).closed = true) ∧
    (∀ (vp od : Option String) (env : EncodeEnv) (pts : List SplitPoint),
      (split_video vp od env pts).closed = true ↔
        Event.splittingCompleted ∈ (split_video vp od env pts).events) := by
  constructor
  · intro vp env
    unfold get_video_info
    split
    · intro h; simp at h
    · split
      · intro h; simp at h
      · intro _; rfl
  · intro vp od env pts
    unfold split_video
    split
    · simp
    · split
      · simp
      · split
        · simp
        · dsimp only
          split
          · rename_i hok
            simp
          · rename_i hok
            constructor
            · intro h; simp at h
            · intro h
              exact absurd h (completed_not_mem_splitLoop _ _ _ _ _ _)

/-- C2 witness: on a fully successful run both operations close the
resource. -/
theorem resource_release_witness :
    (get_video_info (some "a.mp4") ⟨none, 90000, 640, 480, 30, fun _ => none⟩).closed
      = true ∧
    (split_video (some "a.mp4") (some "o")
      ⟨none, 90000, 640, 480, 30, fun _ => none⟩
      [⟨some 0, some 1000, true⟩]).closed = true :=
  ⟨resource_release_characterization.1 (some "a.mp4")
      ⟨none, 90000, 640, 480, 30, fun _ => none⟩ (by decide),
    (resource_release_characterization.2 (some "a.mp4") (some "o")
      ⟨none, 90000, 640, 480, 30, fun _ => none⟩
      [⟨some 0, some 1000, true⟩]).mpr (by decide)⟩

/-! ### C10: the in-place mutation of the split-point list -/

/-- C10 (counterexample): on a failed export in which the video could
not be opened, the caller's interval list is returned unchanged — the
last interval's end stays unset — contradicting the claim that even a
failed export leaves a set `endMs`. -/
theorem split_video_mutation_counterexample :
    (split_video (some "a.mp4") (some "o")
      ⟨some "cannot open", 90000, 0, 0, 0, fun _ => none⟩
      [⟨some 0, none, true⟩]).events =
        [Event.errorOccurred "Error splitting video: cannot open"] ∧
    (split_video (some "a.mp4") (some "o")
      ⟨some "cannot open", 90000, 0, 0, 0, fun _ => none⟩
      [⟨some 0, none, true⟩]).points = [⟨some 0, none, true⟩] := by
  decide

/-- C10 (amended): once the preconditions pass and the video opens
successfully, `split_video` writes the resolved duration into the last
interval's `end_time` when it was unset (leaving every other field and
interval unchanged), whether or not the encoding later fails; on a
configuration failure or when the open itself fails, the list is
returned unchanged. -/
theorem split_video_mutates_points (vp od : Option String) (env : EncodeEnv)
    (pts : List SplitPoint) :
    (∀ h : pts ≠ [], pyFalsyStr vp = false → pyFalsyStr od = false →
      env.openError = none →
      (split_video vp od env pts).points =
        (if (pts.getLast h).end_time = none
         then pts.dropLast ++ [{ pts.getLast h with end_time := some env.durationMs }]
         else pts)) ∧
    ((pyFalsyStr vp || pyFalsyStr od) = true →
      (split_video vp od env pts).points = pts) ∧
    (∀ msg, env.openError = some msg → (split_video vp od env pts).points = pts) := by
  refine ⟨?_, ?_, ?_⟩
  · intro h hvp hod hopen
    rw [← resolveLast_spec pts env.durationMs h]
    unfold split_video
    rw [hvp, hod, hopen, isEmpty_false_of_ne_nil h]
    rw [if_neg (by decide), if_neg (by decide)]
    dsimp only
    split
    · rfl
    · rfl
  · intro h
    unfold split_video
    rw [if_pos h]
  · intro msg hmsg
    unfold split_video
    split
    · rfl
    · split
      · rfl
      · rw [hmsg]

/-- C10 witness: a successful run resolves the unset end to the
duration. -/
theorem split_video_mutates_points_witness :
    (split_video (some "a.mp4") (some "o")
      ⟨none, 90000, 0, 0, 0, fun _ => none⟩
      [⟨some 0, none, true⟩]).points = [⟨some 0, some 90000, true⟩] := by
  have h := (split_video_mutates_points (some "a.mp4") (some "o")
    ⟨none, 90000, 0, 0, 0, fun _ => none⟩ [⟨some 0, none, true⟩]).1
    (by decide) rfl rfl rfl
  rw [h]
  decide

end Mp4Splitter
